import Mathlib

/-!
Verification of the `berry` project-bootstrap CLI (src/main.rs).

The development embeds the tool's pure text-rewrite engine (the chained
`str::replace` calls of `update_cargo_file`, `update_foundry_config` and
`update_remappings`) as functions on `List Char`, and its effectful
pipelines (`init_project` / `main` / `run_setup`) as state-passing
functions over an explicit world, with oracles supplying the outcomes of
external processes and of the fallible clone step.
-/

set_option maxRecDepth 40000

namespace Berry

/-- Fuel-driven scanner behind `replaceAll`; the fuel only serves structural
recursion and is irrelevant whenever it bounds the input length. -/
def replaceAllFuel (p r : List Char) : List Char → Nat → List Char
  | [], _ => []
  | c :: cs, 0 => c :: cs
  | c :: cs, Nat.succ n =>
    if p ≠ [] ∧ p <+: c :: cs then
      r ++ replaceAllFuel p r (List.drop p.length (c :: cs)) n
    else
      c :: replaceAllFuel p r cs n

/-- Model of Rust `str::replace pat rep` for a nonempty pattern: scan left to
right; whenever `pat` is a prefix of the remaining input, emit `rep` and skip
the matched characters; otherwise keep one character and continue.  (For an
empty pattern the scan just copies the input; all patterns used by the tool
are nonempty.) -/
def replaceAll (p r : List Char) (s : List Char) : List Char :=
  replaceAllFuel p r s s.length

/-- Bool check: no nonempty suffix of `a` is a prefix of `b`. -/
def noSufPreB (a b : List Char) : Bool :=
  a.tails.all fun t => t.isEmpty || !(t.isPrefixOf b)

/-- Bool check: `a` occurs somewhere inside `b`. -/
def isInfB (a b : List Char) : Bool :=
  b.tails.any fun t => a.isPrefixOf t

/-- Bool check: `a` is not an infix of `b`. -/
def notInfixB (a b : List Char) : Bool :=
  !(isInfB a b)

/-- Bool check: the only nonempty suffix of `src` that is a prefix of
`target` is `allowed`. -/
def onlyStraddleB (src target allowed : List Char) : Bool :=
  src.tails.all fun t => t.isEmpty || !(t.isPrefixOf target) || t == allowed

/-! ### The manifest (Cargo.toml) rewrite rule set of `update_cargo_file` -/

/-- Pattern of the methods-manifest special case. -/
def bmethodsPat : List Char :=
  ("risc0-build-ethereum = \x7b workspace = true \x7d").toList

/-- Replacement of the methods-manifest special case. -/
def bmethodsRep : List Char :=
  ("risc0-build-ethereum = \x7b git = \"https://github.com/risc0/risc0-ethereum\", branch = \"release-1.3\" \x7d").toList

def buildEthGit : List Char :=
  ("risc0-build-ethereum = \x7b git = \"https://github.com/risc0/risc0-ethereum\", branch = \"release-1.3\" \x7d").toList

def contractsGit : List Char :=
  ("risc0-ethereum-contracts = \x7b git = \"https://github.com/risc0/risc0-ethereum\", branch = \"release-1.3\" \x7d").toList

/-- Remote-source declaration for risc0-steel without the feature flag. -/
def steelGit : List Char :=
  ("risc0-steel = \x7b git = \"https://github.com/risc0/risc0-ethereum\", branch = \"release-1.3\" \x7d").toList

/-- Remote-source declaration for risc0-steel with the extra
`features = ["host"]` flag used under `/apps/`. -/
def steelGitHost : List Char :=
  ("risc0-steel = \x7b git = \"https://github.com/risc0/risc0-ethereum\", branch = \"release-1.3\", features = [\"host\"] \x7d").toList

def steelPathPat1 : List Char :=
  ("risc0-steel = \x7b path = \"../../crates/steel\" \x7d").toList

def steelPathPat2 : List Char :=
  ("risc0-steel = \x7b path = \"../../../crates/steel\" \x7d").toList

def steelPathPat3 : List Char :=
  ("risc0-steel = \x7b path = \"../../../../crates/steel\" \x7d").toList

def steelWsPat : List Char :=
  ("risc0-steel = \x7b workspace = true \x7d").toList

def steelWsHostPat : List Char :=
  ("risc0-steel = \x7b workspace = true, features = [\"host\"] \x7d").toList

def buildEthPathPat : List Char :=
  ("risc0-build-ethereum = \x7b path = \"../../build\" \x7d").toList

def contractsPathPat : List Char :=
  ("risc0-ethereum-contracts = \x7b path = \"../../contracts\" \x7d").toList

def contractsWsPat : List Char :=
  ("risc0-ethereum-contracts = \x7b workspace = true \x7d").toList

/-- The eight general replacements of `update_cargo_file`, in source order. -/
def generalRules : List (List Char × List Char) :=
  [(buildEthPathPat, buildEthGit),
   (contractsPathPat, contractsGit),
   (steelPathPat1, steelGit),
   (steelPathPat2, steelGit),
   (steelPathPat3, steelGit),
   (contractsWsPat, contractsGit),
   (steelWsPat, steelGit),
   (steelWsHostPat, steelGitHost)]

/-- Apply an ordered list of literal replacements, first rule first. -/
def applyRules (rules : List (List Char × List Char)) (s : List Char) : List Char :=
  rules.foldl (fun acc pr => replaceAll pr.1 pr.2 acc) s

def methodsTok : List Char := ("methods/Cargo.toml").toList

def appsTok : List Char := ("/apps/").toList

/-- The pure content transformation of `update_cargo_file`: the
methods-manifest special case, otherwise the eight general replacements
followed, for paths under `/apps/`, by the feature-flag rule. -/
def updateCargoContent (path content : List Char) : List Char :=
  if isInfB methodsTok path = true then
    replaceAll bmethodsPat bmethodsRep content
  else
    if isInfB appsTok path = true then
      replaceAll steelGit steelGitHost (applyRules generalRules content)
    else
      applyRules generalRules content

/-! ### Bundled side-condition checks and rule-list lemmas -/

/-- Conditions letting `replaceAll pr.1 pr.2` neither create nor destroy an
occurrence boundary of `q` (used for absence preservation). -/
def ruleOkB (q : List Char) (pr : List Char × List Char) : Bool :=
  (!(q.isEmpty)) && noSufPreB q pr.2 && noSufPreB pr.2 q &&
    notInfixB q pr.2 && notInfixB pr.2 q

/-- Conditions letting `replaceAll pr.1 pr.2` keep an existing occurrence of
`q` intact (no overlap between `q` and the pattern). -/
def keepOkB (q : List Char) (pr : List Char × List Char) : Bool :=
  (!(q.isEmpty)) && notInfixB q pr.1 && notInfixB pr.1 q &&
    noSufPreB pr.1 q && noSufPreB q pr.1

/-- Conditions making `replaceAll pr.1 pr.2` eliminate every occurrence of
its own pattern. -/
def elimOkB (pr : List Char × List Char) : Bool :=
  (!(pr.1.isEmpty)) && noSufPreB pr.1 pr.2 && noSufPreB pr.2 pr.1 &&
    notInfixB pr.1 pr.2 && notInfixB pr.2 pr.1

/-- Joint side condition: every rule of the list eliminates its own pattern
and no rule of the list can recreate any pattern of the list. -/
def crossOkB (rs : List (List Char × List Char)) : Bool :=
  rs.all fun pr => elimOkB pr && rs.all (fun pr2 => ruleOkB pr.1 pr2)

/-- The rewritable path/workspace forms of the risc0-steel dependency. -/
def steelPats : List (List Char) :=
  [steelPathPat1, steelPathPat2, steelPathPat3, steelWsPat]

/-- The text of the extra feature flag. -/
def hostFlag : List Char := ("features = [\"host\"]").toList

/-! ### The remappings.txt rewrite of `update_remappings` -/

def fsPat : List Char := ("forge-std/=../../lib/forge-std/src/").toList

def fsRep : List Char := ("forge-std/=lib/forge-std/src/").toList

def ozPat : List Char := ("openzeppelin/=../../lib/openzeppelin-contracts/").toList

def ozRep : List Char := ("openzeppelin/=lib/openzeppelin-contracts/").toList

def r0Pat : List Char := ("risc0/=../../contracts/src/").toList

def r0Rep : List Char := ("risc0/=lib/risc0-ethereum/contracts/src/").toList

/-- The additive mapping line of `update_remappings`. -/
def ozLine : List Char := ("openzeppelin-contracts/=lib/openzeppelin-contracts/contracts").toList

/-- Head of `ozLine`; it is simultaneously the tail of `ozPat` and of
`ozRep`, which is why the openzeppelin replacement needs a dedicated
occurrence argument. -/
def ozA : List Char := ("openzeppelin-contracts/").toList

def ozB : List Char := ("=lib/openzeppelin-contracts/contracts").toList

def ozRepPre : List Char := ("openzeppelin/=lib/").toList

def ozPatPre : List Char := ("openzeppelin/=../../lib/").toList

/-- The three fixed remapping substitutions, in source order. -/
def replaceRemaps (c : List Char) : List Char :=
  replaceAll r0Pat r0Rep (replaceAll ozPat ozRep (replaceAll fsPat fsRep c))

/-- The pure content transformation of `update_remappings`: the three fixed
substitutions, then the additive rule appending `ozLine` (preceded by a
newline when the rewritten content does not already end in one) whenever
`ozLine` is absent from the rewritten content. -/
def updateRemappingsContent (c : List Char) : List Char :=
  if isInfB ozLine (replaceRemaps c) = true then
    replaceRemaps c
  else
    (if (replaceRemaps c).getLast? = some '\n' then replaceRemaps c
     else replaceRemaps c ++ ['\n']) ++ ozLine ++ ['\n']

/-! ### Process runner, filesystem events and the bootstrap pipeline -/

/-- Outcome of launching one external process. -/
inductive ProcOutcome where
  | launchFail (msg : String)
  | ran (ok : Bool) (out err : String)
deriving DecidableEq

/-- Model of `run_git_command`: launch failure is reported as its message,
a non-zero exit as the captured stderr; success returns unit (the captured
stdout is discarded by the source). -/
def runGitCommandRes (o : ProcOutcome) : Except String Unit :=
  match o with
  | ProcOutcome.launchFail m => Except.error m
  | ProcOutcome.ran ok _ err => if ok then Except.ok () else Except.error err

/-- Model of `get_command_version`: `None` exactly on launch failure; the
captured stdout is returned whether or not the process exited zero (the
source never consults the exit status here). -/
def getCommandVersion (o : ProcOutcome) : Option String :=
  match o with
  | ProcOutcome.launchFail _ => none
  | ProcOutcome.ran _ out _ => some out

/-- Filesystem / version-control effects of the bootstrap pipeline. -/
inductive FsEv where
  | cloneRepo (name : String)
  | gitCmd (dir : String) (args : List String)
  | renamePath (src dst : String)
  | removeDirAll (path : String)
  | removeFile (path : String)
  | createDirAll (path : String)
  | writeFile (path : String)
deriving DecidableEq

/-- Layout of the freshly cloned project tree, as far as
`setup_project_files` manipulates it. -/
structure FsTree where
  nested : Option (List String)
  examplesDir : Bool
  counterRoot : Option (List String)
  rootFiles : List String
  moved : List String
deriving DecidableEq

/-- Model of `setup_project_files`: move `examples/erc20-counter` up if
present, delete `examples` if present, delete every plain root file, move the
counter contents up and delete the emptied directory.  Each move/delete is
guarded by an existence check exactly as in the source. -/
def setupProjectFiles (name : String) (fs : FsTree) : List FsEv × Except String FsTree :=
  let s1 : List FsEv × FsTree :=
    match fs.nested with
    | some es =>
      ([FsEv.renamePath (name ++ ("/examples/erc20-counter")) (name ++ ("/erc20-counter"))],
       { fs with nested := none, counterRoot := some es })
    | none => ([], fs)
  let s2 : List FsEv × FsTree :=
    if s1.2.examplesDir then
      (s1.1 ++ [FsEv.removeDirAll (name ++ ("/examples"))],
       { s1.2 with examplesDir := false, nested := none })
    else (s1.1, s1.2)
  let s3 : List FsEv × FsTree :=
    (s2.1 ++ s2.2.rootFiles.map (fun f => FsEv.removeFile (name ++ ("/" ++ f))),
     { s2.2 with rootFiles := [] })
  match s3.2.counterRoot with
  | some es =>
    (s3.1 ++
       es.map (fun e => FsEv.renamePath (name ++ ("/erc20-counter/" ++ e)) (name ++ ("/" ++ e))) ++
       [FsEv.removeDirAll (name ++ ("/erc20-counter"))],
     Except.ok { s3.2 with counterRoot := none, moved := s3.2.moved ++ es })
  | none => (s3.1, Except.ok s3.2)

/-- Build-config rewrite of `update_foundry_config`. -/
def foundryLibsPat : List Char := ("libs = [\"../../lib\", \"../../contracts/src\"]").toList

def foundryLibsRep : List Char := ("libs = [\"lib\"]").toList

def foundryProfilePat : List Char := ("[profile.default]").toList

def foundryProfileRep : List Char := ("[profile.default]\nauto_detect_remappings = false").toList

def updateFoundryContent (c : List Char) : List Char :=
  replaceAll foundryProfilePat foundryProfileRep (replaceAll foundryLibsPat foundryLibsRep c)

/-- The world a bootstrap run manipulates. -/
structure World where
  projExists : Bool
  tree : FsTree
  cargoFiles : List (String × List Char)
  foundry : Option (List Char)
  remappings : Option (List Char)
  libExists : Bool
  gitDirExists : Bool
deriving DecidableEq

/-- Outcomes of the external/fallible actions of one bootstrap run. -/
structure InitOracle where
  cloneRes : Option String
  cloneLeavesDir : Bool
  checkout : ProcOutcome
  sparse1 : ProcOutcome
  sparse2 : ProcOutcome
  cargoIo : Option String
  foundryIo : Option String
  gitInit : ProcOutcome
  subInit : ProcOutcome
  addForge : ProcOutcome
  addOz : ProcOutcome
  addR0 : ProcOutcome
  subUpdate : ProcOutcome
  gitReset : ProcOutcome
  remapIo : Option String
deriving DecidableEq

/-- Result of one (partial) pipeline run: emitted events, final world, and
the error of the first failing step, if any. -/
structure StepOut where
  ev : List FsEv
  w : World
  err : Option String
deriving DecidableEq

/-- Sequencing: a failing step short-circuits everything after it. -/
def stepSeq (a : StepOut) (f : World → StepOut) : StepOut :=
  match a.err with
  | some _ => a
  | none => { ev := a.ev ++ (f a.w).ev, w := (f a.w).w, err := (f a.w).err }

def gitStep (dir : String) (args : List String) (o : ProcOutcome) (w : World) : StepOut :=
  { ev := [FsEv.gitCmd dir args], w := w,
    err := match runGitCommandRes o with
           | Except.ok _ => none
           | Except.error e => some e }

def cloneStep (name : String) (o : InitOracle) (w : World) : StepOut :=
  { ev := [FsEv.cloneRepo name],
    w := { w with projExists := match o.cloneRes with
                                | none => true
                                | some _ => o.cloneLeavesDir },
    err := o.cloneRes }

def sparseStep (name : String) (o : InitOracle) (w : World) : StepOut :=
  stepSeq (gitStep name [("sparse-checkout"), ("init"), ("--cone")] o.sparse1 w)
    (gitStep name [("sparse-checkout"), ("set"), ("examples/erc20-counter")] o.sparse2)

def filesStep (name : String) (w : World) : StepOut :=
  match setupProjectFiles name w.tree with
  | (ev, Except.ok t2) => { ev := ev, w := { w with tree := t2 }, err := none }
  | (ev, Except.error e) => { ev := ev, w := w, err := some e }

def cargoStep (_name : String) (o : InitOracle) (w : World) : StepOut :=
  match o.cargoIo with
  | some e => { ev := [], w := w, err := some e }
  | none =>
    { ev := w.cargoFiles.map (fun pc => FsEv.writeFile pc.1),
      w := { w with cargoFiles :=
              w.cargoFiles.map fun pc => (pc.1, updateCargoContent pc.1.toList pc.2) },
      err := none }

def foundryStep (name : String) (o : InitOracle) (w : World) : StepOut :=
  match w.foundry with
  | none => { ev := [], w := w, err := none }
  | some c =>
    match o.foundryIo with
    | some e => { ev := [], w := w, err := some e }
    | none =>
      { ev := [FsEv.writeFile (name ++ ("/foundry.toml"))],
        w := { w with foundry := some (updateFoundryContent c) }, err := none }

def submodStep (name : String) (o : InitOracle) (w : World) : StepOut :=
  stepSeq
    { ev := (if w.libExists then [FsEv.removeDirAll (name ++ ("/lib"))] else []) ++
        [FsEv.createDirAll (name ++ ("/lib"))] ++
        (if w.gitDirExists then [FsEv.removeDirAll (name ++ ("/.git"))] else []),
      w := { w with libExists := true, gitDirExists := true },
      err := none }
    fun w1 =>
  stepSeq (gitStep name [("init")] o.gitInit w1) fun w2 =>
  stepSeq (gitStep name [("submodule"), ("init")] o.subInit w2) fun w3 =>
  stepSeq (gitStep name
      [("submodule"), ("add"), ("https://github.com/foundry-rs/forge-std"), ("lib/forge-std")]
      o.addForge w3) fun w4 =>
  stepSeq (gitStep name
      [("submodule"), ("add"), ("https://github.com/OpenZeppelin/openzeppelin-contracts"),
       ("lib/openzeppelin-contracts")] o.addOz w4) fun w5 =>
  stepSeq (gitStep name
      [("submodule"), ("add"), ("-b"), ("release-1.3"),
       ("https://github.com/risc0/risc0-ethereum"), ("lib/risc0-ethereum")] o.addR0 w5) fun w6 =>
  stepSeq (gitStep name [("submodule"), ("update"), ("--init"), ("--recursive"), ("--quiet")]
      o.subUpdate w6)
    (gitStep name [("reset")] o.gitReset)

def remapStep (name : String) (o : InitOracle) (w : World) : StepOut :=
  match w.remappings with
  | none => { ev := [], w := w, err := none }
  | some c =>
    match o.remapIo with
    | some e => { ev := [], w := w, err := some e }
    | none =>
      { ev := [FsEv.writeFile (name ++ ("/remappings.txt"))],
        w := { w with remappings := some (updateRemappingsContent c) }, err := none }

def alreadyExistsMsg (name : String) : String :=
  ("A file or directory named '" ++ name ++
   ("' already exists. Please choose a different name or remove the existing one."))

/-- Model of `init_project`: existence precondition, then the eight steps in
source order, stopping at the first failure; no step performs compensating
cleanup. -/
def initProject (name : String) (o : InitOracle) (w : World) : StepOut :=
  if w.projExists = true then
    { ev := [], w := w, err := some (alreadyExistsMsg name) }
  else
    stepSeq (cloneStep name o w) fun w1 =>
    stepSeq (gitStep name [("checkout"), ("release-1.3")] o.checkout w1) fun w2 =>
    stepSeq (sparseStep name o w2) fun w3 =>
    stepSeq (filesStep name w3) fun w4 =>
    stepSeq (cargoStep name o w4) fun w5 =>
    stepSeq (foundryStep name o w5) fun w6 =>
    stepSeq (submodStep name o w6)
      (remapStep name o)

/-- Diagnostics printed by `main`'s create-project branch. -/
inductive Msg where
  | depsFailed
  | emptyName
  | alreadyExists (name : String)
  | initError (e : String)
  | createdOk (name : String)
deriving DecidableEq

/-- Result of one full `main` run of the create-project branch. -/
structure RunOut where
  events : List FsEv
  world : World
  exitCode : Nat
  msgs : List Msg
deriving DecidableEq

/-- `name.trim().is_empty()`: the name consists of whitespace only. -/
def trimEmpty (name : String) : Bool :=
  name.data.all Char.isWhitespace

/-- Model of `main`'s `New` branch: dependency probes, empty-name check,
existence check, then `init_project` with the compensating cleanup on
failure.  Every path of this branch returns from `main` normally, so the
process exit code is 0 throughout — including the failure paths. -/
def mainNew (depsOk : Bool) (name : String) (o : InitOracle) (w : World) : RunOut :=
  if depsOk = false then
    { events := [], world := w, exitCode := 0, msgs := [Msg.depsFailed] }
  else if trimEmpty name = true then
    { events := [], world := w, exitCode := 0, msgs := [Msg.emptyName] }
  else if w.projExists = true then
    { events := [], world := w, exitCode := 0, msgs := [Msg.alreadyExists name] }
  else
    match (initProject name o w).err with
    | none =>
      { events := (initProject name o w).ev, world := (initProject name o w).w,
        exitCode := 0, msgs := [Msg.createdOk name] }
    | some e =>
      if (initProject name o w).w.projExists = true then
        { events := (initProject name o w).ev ++ [FsEv.removeDirAll name],
          world := { (initProject name o w).w with projExists := false },
          exitCode := 0, msgs := [Msg.initError e] }
      else
        { events := (initProject name o w).ev, world := (initProject name o w).w,
          exitCode := 0, msgs := [Msg.initError e] }

/-! ### The test-prep pipeline (`run_setup` / `main`'s Setup branch) -/

/-- The world of a test-prep run: current directory, existing directories,
the directories containing `e2e-test.sh`, and whether the invoking
environment already carries `BONSAI_API_KEY`. -/
structure SetupWorld where
  cwd : String
  dirs : List String
  e2eIn : List String
  bonsaiKeySet : Bool
deriving DecidableEq

/-- Outcomes of the external actions of one test-prep run. -/
structure SetupOracle where
  build : ProcOutcome
  chmodTest : ProcOutcome
  envWriteErr : Option String
  chmodEnv : ProcOutcome
deriving DecidableEq

/-- Effects of the test-prep pipeline, each tagged with the directory it
operates in. -/
inductive SEv where
  | chdir (d : String)
  | checkFile (cwd f : String)
  | runShell (cwd cmd : String)
  | chmodF (cwd f : String)
  | writeFile (cwd f : String) (content : List Char)
deriving DecidableEq

def evDir (e : SEv) : Option String :=
  match e with
  | SEv.chdir _ => none
  | SEv.checkFile c _ => some c
  | SEv.runShell c _ => some c
  | SEv.chmodF c _ => some c
  | SEv.writeFile c _ _ => some c

/-- The four fixed connection defaults written to `env.sh`. -/
def envExports : List Char :=
  ("export BONSAI_API_URL=https://api.bonsai.xyz\nexport ETH_WALLET_ADDRESS=0xf39Fd6e51aad88F6F4ce6aB8827279cffFb92266\nexport ETH_WALLET_PRIVATE_KEY=0xac0974bec39a17e36ba4a6b4d238ff944bacb478cbed5efcae784d7bf4f2ff80\nexport ETH_RPC_URL=http://localhost:8545\n").toList

/-- The commented placeholder for the secret API key. -/
def bonsaiPlaceholder : List Char :=
  ("\n# Get your Bonsai API key from https://bonsai.xyz/apply\n# export BONSAI_API_KEY=your_api_key_here\n").toList

/-- Content of the synthesized `env.sh`: the placeholder block is emitted
only when `BONSAI_API_KEY` is absent from the invoking environment. -/
def envFileContent (bonsaiKeySet : Bool) : List Char :=
  envExports ++ (if bonsaiKeySet then [] else bonsaiPlaceholder)

structure SetupOut where
  ev : List SEv
  w : SetupWorld
  err : Option String
deriving DecidableEq

/-- Body of `run_setup` after the optional directory change: entry-script
check, combined build, chmod of the test script (exit status checked), write
of `env.sh`, chmod of `env.sh` (exit status ignored, as in the source). -/
def runSetupBody (o : SetupOracle) (w : SetupWorld) (ev0 : List SEv) : SetupOut :=
  if w.cwd ∈ w.e2eIn then
    match o.build with
    | ProcOutcome.launchFail m =>
      { ev := ev0 ++ [SEv.checkFile w.cwd ("e2e-test.sh"),
                      SEv.runShell w.cwd ("cargo build && forge build")],
        w := w, err := some (("Failed to build project: ") ++ m) }
    | ProcOutcome.ran ok _ berr =>
      if ok = false then
        { ev := ev0 ++ [SEv.checkFile w.cwd ("e2e-test.sh"),
                        SEv.runShell w.cwd ("cargo build && forge build")],
          w := w, err := some (("Build failed: ") ++ berr) }
      else
        match o.chmodTest with
        | ProcOutcome.launchFail m =>
          { ev := ev0 ++ [SEv.checkFile w.cwd ("e2e-test.sh"),
                          SEv.runShell w.cwd ("cargo build && forge build"),
                          SEv.chmodF w.cwd ("e2e-test.sh")],
            w := w, err := some (("Failed to make e2e-test.sh executable: ") ++ m) }
        | ProcOutcome.ran ok2 _ cerr =>
          if ok2 = false then
            { ev := ev0 ++ [SEv.checkFile w.cwd ("e2e-test.sh"),
                            SEv.runShell w.cwd ("cargo build && forge build"),
                            SEv.chmodF w.cwd ("e2e-test.sh")],
              w := w, err := some (("Failed to make e2e-test.sh executable: ") ++ cerr) }
          else
            match o.envWriteErr with
            | some e =>
              { ev := ev0 ++ [SEv.checkFile w.cwd ("e2e-test.sh"),
                              SEv.runShell w.cwd ("cargo build && forge build"),
                              SEv.chmodF w.cwd ("e2e-test.sh")],
                w := w, err := some (("Failed to create env.sh: ") ++ e) }
            | none =>
              match o.chmodEnv with
              | ProcOutcome.launchFail m =>
                { ev := ev0 ++ [SEv.checkFile w.cwd ("e2e-test.sh"),
                                SEv.runShell w.cwd ("cargo build && forge build"),
                                SEv.chmodF w.cwd ("e2e-test.sh"),
                                SEv.writeFile w.cwd ("env.sh") (envFileContent w.bonsaiKeySet),
                                SEv.chmodF w.cwd ("env.sh")],
                  w := w, err := some (("Failed to make env.sh executable: ") ++ m) }
              | ProcOutcome.ran _ _ _ =>
                { ev := ev0 ++ [SEv.checkFile w.cwd ("e2e-test.sh"),
                                SEv.runShell w.cwd ("cargo build && forge build"),
                                SEv.chmodF w.cwd ("e2e-test.sh"),
                                SEv.writeFile w.cwd ("env.sh") (envFileContent w.bonsaiKeySet),
                                SEv.chmodF w.cwd ("env.sh")],
                  w := w, err := none }
  else
    { ev := ev0 ++ [SEv.checkFile w.cwd ("e2e-test.sh")], w := w,
      err := some ("e2e-test.sh not found. Please run this command from your project directory or specify the project directory (e.g., berry setup my-project)") }

/-- Model of `run_setup`: an existing directory argument permanently changes
the current working directory before anything else; everything afterwards
runs inside it. -/
def runSetup (dir : Option String) (o : SetupOracle) (w : SetupWorld) : SetupOut :=
  match dir with
  | some d =>
    if d ∈ w.dirs then
      runSetupBody o { w with cwd := d } [SEv.chdir d]
    else
      { ev := [], w := w, err := some (("Directory '" ++ d) ++ ("' not found")) }
  | none => runSetupBody o w []

/-- The directory a setup run operates in. -/
def setupDirOf (dir : Option String) (w : SetupWorld) : String :=
  match dir with
  | some d => d
  | none => w.cwd

/-- Model of `main`'s Setup branch: exit code 1 exactly on failure (this
branch, unlike the New branch, calls `process::exit(1)`). -/
def mainSetup (dir : Option String) (o : SetupOracle) (w : SetupWorld) : SetupOut × Nat :=
  (runSetup dir o w,
   match (runSetup dir o w).err with
   | none => 0
   | some _ => 1)

/-! ### Concrete worlds and oracles used by the witnesses -/

def tree0 : FsTree :=
  { nested := none, examplesDir := false, counterRoot := none, rootFiles := [], moved := [] }

def oOk : InitOracle :=
  { cloneRes := none, cloneLeavesDir := true,
    checkout := ProcOutcome.ran true ("") (""),
    sparse1 := ProcOutcome.ran true ("") (""),
    sparse2 := ProcOutcome.ran true ("") (""),
    cargoIo := none, foundryIo := none,
    gitInit := ProcOutcome.ran true ("") (""),
    subInit := ProcOutcome.ran true ("") (""),
    addForge := ProcOutcome.ran true ("") (""),
    addOz := ProcOutcome.ran true ("") (""),
    addR0 := ProcOutcome.ran true ("") (""),
    subUpdate := ProcOutcome.ran true ("") (""),
    gitReset := ProcOutcome.ran true ("") (""),
    remapIo := none }

/-- A bootstrap run whose clone step fails (and leaves the half-created
directory behind). -/
def oCloneFail : InitOracle :=
  { oOk with cloneRes := some ("network unreachable") }

def wExist : World :=
  { projExists := true, tree := tree0, cargoFiles := [], foundry := none,
    remappings := none, libExists := false, gitDirExists := false }

def wFresh : World :=
  { projExists := false, tree := tree0, cargoFiles := [], foundry := none,
    remappings := none, libExists := false, gitDirExists := false }

def fsA : FsTree :=
  { nested := none, examplesDir := true,
    counterRoot := some [("src"), ("Cargo.toml")],
    rootFiles := [("README.md")], moved := [] }

def oSetupOk : SetupOracle :=
  { build := ProcOutcome.ran true ("") (""),
    chmodTest := ProcOutcome.ran true ("") (""),
    envWriteErr := none,
    chmodEnv := ProcOutcome.ran true ("") ("") }

def wSetup0 : SetupWorld :=
  { cwd := ("."), dirs := [], e2eIn := [], bonsaiKeySet := false }

def wSetupKey : SetupWorld :=
  { cwd := ("proj"), dirs := [("proj")], e2eIn := [("proj")], bonsaiKeySet := true }

def wSetupDir : SetupWorld :=
  { cwd := ("."), dirs := [("proj")], e2eIn := [("proj")], bonsaiKeySet := false }

/-- Recursive-deletion inventory of the pipeline: the only paths a pipeline
step ever removes recursively are the four fixed sub-paths of the project
directory — never the project directory itself. -/
def remOnly (name : String) (e : FsEv) : Prop :=
  ∀ p : String, e = FsEv.removeDirAll p →
    p = name ++ ("/examples") ∨ p = name ++ ("/erc20-counter") ∨
    p = name ++ ("/lib") ∨ p = name ++ ("/.git")

/-! ### Theorems -/

theorem replaceAllFuel_congr (p r : List Char) :
    ∀ n : Nat, ∀ s : List Char, ∀ m : Nat, s.length ≤ n → s.length ≤ m →
      replaceAllFuel p r s n = replaceAllFuel p r s m := by
  intro n
  induction n with
  | zero =>
    intro s m hn _
    have : s = [] := by cases s with | nil => rfl | cons c cs => simp at hn
    subst this
    cases m <;> rfl
  | succ n ih =>
    intro s m hn hm
    cases s with
    | nil => cases m <;> rfl
    | cons c cs =>
      cases m with
      | zero => simp at hm
      | succ m =>
        show (if p ≠ [] ∧ p <+: c :: cs then
                r ++ replaceAllFuel p r (List.drop p.length (c :: cs)) n
              else c :: replaceAllFuel p r cs n) =
             (if p ≠ [] ∧ p <+: c :: cs then
                r ++ replaceAllFuel p r (List.drop p.length (c :: cs)) m
              else c :: replaceAllFuel p r cs m)
        by_cases hc : p ≠ [] ∧ p <+: c :: cs
        · rw [if_pos hc, if_pos hc]
          have hp : 1 ≤ p.length := by
            cases p with
            | nil => exact absurd rfl hc.1
            | cons x xs => simp
          have hd : (List.drop p.length (c :: cs)).length ≤ n := by
            simp only [List.length_drop, List.length_cons]
            simp at hn
            omega
          have hd2 : (List.drop p.length (c :: cs)).length ≤ m := by
            simp only [List.length_drop, List.length_cons]
            simp at hm
            omega
          rw [ih _ m hd hd2]
        · rw [if_neg hc, if_neg hc]
          have h1 : cs.length ≤ n := by simp at hn; omega
          have h2 : cs.length ≤ m := by simp at hm; omega
          rw [ih cs m h1 h2]

theorem noSufPre_prop {a b : List Char} (h : noSufPreB a b = true) :
    ∀ t : List Char, t ≠ [] → t <:+ a → ¬ t <+: b := by
  intro t ht hsuf hpre
  have hmem : t ∈ a.tails := (List.mem_tails t a).2 hsuf
  have := (List.all_eq_true.1 h) t hmem
  rcases Bool.or_eq_true_iff.1 this with h1 | h2
  · exact ht (List.isEmpty_iff.1 h1)
  · rw [Bool.not_eq_true', ← Bool.not_eq_true] at h2
    exact h2 (List.isPrefixOf_iff_prefix.2 hpre)

theorem isInf_prop {a b : List Char} (h : a <:+: b) : isInfB a b = true := by
  rcases List.infix_iff_prefix_suffix.1 h with ⟨t, hp, hs⟩
  exact List.any_eq_true.2 ⟨t, (List.mem_tails t b).2 hs, List.isPrefixOf_iff_prefix.2 hp⟩

theorem notInfix_prop {a b : List Char} (h : notInfixB a b = true) :
    ¬ a <:+: b := by
  intro hi
  rw [notInfixB, Bool.not_eq_true', ← Bool.not_eq_true] at h
  exact h (isInf_prop hi)

theorem onlyStraddle_prop {src target allowed : List Char}
    (h : onlyStraddleB src target allowed = true) :
    ∀ t : List Char, t ≠ [] → t <:+ src → t <+: target → t = allowed := by
  intro t ht hsuf hpre
  have hmem : t ∈ src.tails := (List.mem_tails t src).2 hsuf
  have := (List.all_eq_true.1 h) t hmem
  rcases Bool.or_eq_true_iff.1 this with h1 | h2
  · rcases Bool.or_eq_true_iff.1 h1 with h3 | h4
    · exact absurd (List.isEmpty_iff.1 h3) ht
    · rw [Bool.not_eq_true', ← Bool.not_eq_true] at h4
      exact absurd (List.isPrefixOf_iff_prefix.2 hpre) h4
  · exact eq_of_beq h2

/-- Decompose a prefix of an append. -/
theorem prefixAppendCases {q A B : List Char} (h : q <+: A ++ B) :
    q <+: A ∨ ∃ b, q = A ++ b ∧ b <+: B := by
  induction A generalizing q with
  | nil => exact Or.inr ⟨q, by simp, by simpa using h⟩
  | cons a A ih =>
    rcases List.prefix_cons_iff.1 h with h0 | ⟨t, rfl, ht⟩
    · subst h0; exact Or.inl List.nil_prefix
    · rcases ih ht with h1 | ⟨b, rfl, hb⟩
      · exact Or.inl (List.cons_prefix_cons.2 ⟨rfl, h1⟩)
      · exact Or.inr ⟨b, by simp, hb⟩

/-- Decompose an infix of an append: inside the left part, inside the right
part, or straddling the border. -/
theorem infixAppendCases {q A B : List Char} (h : q <:+: A ++ B) :
    q <:+: A ∨ q <:+: B ∨
      ∃ a b, q = a ++ b ∧ a ≠ [] ∧ b ≠ [] ∧ a <:+ A ∧ b <+: B := by
  induction A generalizing q with
  | nil => exact Or.inr (Or.inl (by simpa using h))
  | cons x A ih =>
    rw [List.cons_append, List.infix_cons_iff] at h
    rcases h with h | h
    · rcases List.prefix_cons_iff.1 h with h0 | ⟨t, rfl, ht⟩
      · subst h0; exact Or.inl (List.nil_infix)
      · rcases prefixAppendCases ht with h1 | ⟨b, rfl, hb⟩
        · exact Or.inl ((List.cons_prefix_cons.2 ⟨rfl, h1⟩).isInfix)
        · rcases eq_or_ne b [] with rfl | hbne
          · exact Or.inl (by simp)
          · refine Or.inr (Or.inr ⟨x :: A, b, by simp, by simp, hbne, ?_, hb⟩)
            exact List.suffix_rfl
    · rcases ih h with h1 | h1 | ⟨a, b, rfl, ha, hb, hsa, hpb⟩
      · exact Or.inl (h1.trans ((List.suffix_cons x A).isInfix))
      · exact Or.inr (Or.inl h1)
      · exact Or.inr (Or.inr ⟨a, b, rfl, ha, hb, hsa.trans (List.suffix_cons x A), hpb⟩)

theorem replaceAll_nil {p r : List Char} : replaceAll p r [] = [] := rfl

theorem replaceAll_pos {p r : List Char} {c : Char} {cs : List Char}
    (h : p ≠ [] ∧ p <+: c :: cs) :
    replaceAll p r (c :: cs) = r ++ replaceAll p r (List.drop p.length (c :: cs)) := by
  show (if p ≠ [] ∧ p <+: c :: cs then
          r ++ replaceAllFuel p r (List.drop p.length (c :: cs)) cs.length
        else c :: replaceAllFuel p r cs cs.length) = _
  rw [if_pos h, replaceAll]
  have hp : 1 ≤ p.length := by
    cases p with
    | nil => exact absurd rfl h.1
    | cons x xs => simp
  have hd : (List.drop p.length (c :: cs)).length ≤ cs.length := by
    simp only [List.length_drop, List.length_cons]
    omega
  rw [replaceAllFuel_congr p r cs.length _ _ hd le_rfl]

theorem replaceAll_neg {p r : List Char} {c : Char} {cs : List Char}
    (h : ¬ (p ≠ [] ∧ p <+: c :: cs)) :
    replaceAll p r (c :: cs) = c :: replaceAll p r cs := by
  show (if p ≠ [] ∧ p <+: c :: cs then
          r ++ replaceAllFuel p r (List.drop p.length (c :: cs)) cs.length
        else c :: replaceAllFuel p r cs cs.length) = _
  rw [if_neg h, replaceAll]

theorem prefix_drop_eq {p s : List Char} (h : p <+: s) :
    s = p ++ List.drop p.length s := by
  rcases h with ⟨t, rfl⟩
  rw [List.drop_left]

/-- A nonempty suffix of `q` that is a prefix of the rewritten text was
already a prefix of the original text, provided no nonempty suffix of `q` is
a prefix of the replacement `r` and `r` does not occur inside `q`. -/
theorem transferPre (q p r : List Char)
    (h1 : ∀ t : List Char, t ≠ [] → t <:+ q → ¬ t <+: r)
    (h4 : ¬ r <:+: q) :
    ∀ s t : List Char, t ≠ [] → t <:+ q → t <+: replaceAll p r s → t <+: s := by
  suffices H : ∀ n : Nat, ∀ s : List Char, s.length ≤ n →
      ∀ t : List Char, t ≠ [] → t <:+ q → t <+: replaceAll p r s → t <+: s by
    intro s; exact H s.length s le_rfl
  intro n
  induction n with
  | zero =>
    intro s hs t ht hsuf hpre
    have : s = [] := by cases s with | nil => rfl | cons c cs => simp at hs
    subst this
    rw [replaceAll_nil] at hpre
    exact absurd (List.prefix_nil.1 hpre) ht
  | succ n ih =>
    intro s hs t ht hsuf hpre
    cases s with
    | nil =>
      rw [replaceAll_nil] at hpre
      exact absurd (List.prefix_nil.1 hpre) ht
    | cons c cs =>
      by_cases hc : p ≠ [] ∧ p <+: c :: cs
      · rw [replaceAll_pos hc] at hpre
        rcases prefixAppendCases hpre with htr | ⟨b, rfl, hb⟩
        · exact absurd htr (h1 t ht hsuf)
        · exact absurd ((List.prefix_append r b).isInfix.trans hsuf.isInfix) h4
      · rw [replaceAll_neg hc] at hpre
        rcases List.prefix_cons_iff.1 hpre with h0 | ⟨t2, rfl, ht2⟩
        · exact absurd h0 ht
        · rcases eq_or_ne t2 [] with rfl | ht2ne
          · exact List.cons_prefix_cons.2 ⟨rfl, List.nil_prefix⟩
          · have hsuf2 : t2 <:+ q := (List.suffix_cons c t2).trans hsuf
            have hlen : cs.length ≤ n := by simp at hs; omega
            exact List.cons_prefix_cons.2 ⟨rfl, ih cs hlen t2 ht2ne hsuf2 ht2⟩

/-- The pattern itself never occurs in the rewritten text, provided the
pattern and replacement do not overlap each other. -/
theorem replaceAll_elim (p r : List Char) (hp : p ≠ [])
    (h1 : ∀ t : List Char, t ≠ [] → t <:+ p → ¬ t <+: r)
    (h2 : ∀ t : List Char, t ≠ [] → t <:+ r → ¬ t <+: p)
    (h3 : ¬ p <:+: r) (h4 : ¬ r <:+: p) :
    ∀ s : List Char, ¬ p <:+: replaceAll p r s := by
  suffices H : ∀ n : Nat, ∀ s : List Char, s.length ≤ n →
      ¬ p <:+: replaceAll p r s by
    intro s; exact H s.length s le_rfl
  intro n
  induction n with
  | zero =>
    intro s hs habs
    have : s = [] := by cases s with | nil => rfl | cons c cs => simp at hs
    subst this
    rw [replaceAll_nil] at habs
    exact hp (List.infix_nil.1 habs)
  | succ n ih =>
    intro s hs habs
    cases s with
    | nil =>
      rw [replaceAll_nil] at habs
      exact hp (List.infix_nil.1 habs)
    | cons c cs =>
      by_cases hc : p ≠ [] ∧ p <+: c :: cs
      · rw [replaceAll_pos hc] at habs
        rcases infixAppendCases habs with hA | hA | ⟨a, b, heq, ha, hb, hsa, hpb⟩
        · exact h3 hA
        · have hlen : (List.drop p.length (c :: cs)).length ≤ n := by
            have : 1 ≤ p.length := by
              cases p with
              | nil => exact absurd rfl hc.1
              | cons x xs => simp
            simp only [List.length_drop, List.length_cons]
            simp at hs
            omega
          exact ih _ hlen hA
        · exact h2 a ha hsa ⟨b, heq.symm⟩
      · rw [replaceAll_neg hc] at habs
        rcases List.infix_cons_iff.1 habs with hA | hA
        · rcases List.prefix_cons_iff.1 hA with h0 | ⟨p2, hpeq, hp2⟩
          · exact hp h0
          · rcases eq_or_ne p2 [] with h00 | hp2ne
            · subst h00
              exact hc ⟨hp, by rw [hpeq]; exact List.cons_prefix_cons.2 ⟨rfl, List.nil_prefix⟩⟩
            · have hsuf2 : p2 <:+ p := by rw [hpeq]; exact List.suffix_cons c p2
              have : p2 <+: cs := transferPre p p r h1 h4 cs p2 hp2ne hsuf2 hp2
              exact hc ⟨hp, by rw [hpeq]; exact List.cons_prefix_cons.2 ⟨rfl, this⟩⟩
        · have hlen : cs.length ≤ n := by simp at hs; omega
          exact ih cs hlen hA

/-- An absent string `q` stays absent across a rewrite, provided `q` and the
replacement `r` do not overlap each other. -/
theorem replaceAll_preserve_absent (q p r : List Char) (hq : q ≠ [])
    (h1 : ∀ t : List Char, t ≠ [] → t <:+ q → ¬ t <+: r)
    (h2 : ∀ t : List Char, t ≠ [] → t <:+ r → ¬ t <+: q)
    (h3 : ¬ q <:+: r) (h4 : ¬ r <:+: q) :
    ∀ s : List Char, ¬ q <:+: s → ¬ q <:+: replaceAll p r s := by
  suffices H : ∀ n : Nat, ∀ s : List Char, s.length ≤ n →
      ¬ q <:+: s → ¬ q <:+: replaceAll p r s by
    intro s; exact H s.length s le_rfl
  intro n
  induction n with
  | zero =>
    intro s hs h0 habs
    have : s = [] := by cases s with | nil => rfl | cons c cs => simp at hs
    subst this
    rw [replaceAll_nil] at habs
    exact hq (List.infix_nil.1 habs)
  | succ n ih =>
    intro s hs h0 habs
    cases s with
    | nil =>
      rw [replaceAll_nil] at habs
      exact hq (List.infix_nil.1 habs)
    | cons c cs =>
      by_cases hc : p ≠ [] ∧ p <+: c :: cs
      · rw [replaceAll_pos hc] at habs
        have hsplit : c :: cs = p ++ List.drop p.length (c :: cs) := prefix_drop_eq hc.2
        have h0d : ¬ q <:+: List.drop p.length (c :: cs) := by
          intro hx
          exact h0 (hx.trans (List.drop_suffix _ _).isInfix)
        rcases infixAppendCases habs with hA | hA | ⟨a, b, heq, ha, hb, hsa, hpb⟩
        · exact h3 hA
        · have hlen : (List.drop p.length (c :: cs)).length ≤ n := by
            have : 1 ≤ p.length := by
              cases p with
              | nil => exact absurd rfl hc.1
              | cons x xs => simp
            simp only [List.length_drop, List.length_cons]
            simp at hs
            omega
          exact ih _ hlen h0d hA
        · exact h2 a ha hsa ⟨b, heq.symm⟩
      · rw [replaceAll_neg hc] at habs
        have h0cs : ¬ q <:+: cs := by
          intro hx
          exact h0 (hx.trans (List.suffix_cons c cs).isInfix)
        rcases List.infix_cons_iff.1 habs with hA | hA
        · rcases List.prefix_cons_iff.1 hA with h00 | ⟨q2, hqeq, hq2⟩
          · exact hq h00
          · rcases eq_or_ne q2 [] with h00 | hq2ne
            · subst h00
              exact h0 (by rw [hqeq]; exact (List.cons_prefix_cons.2 ⟨rfl, List.nil_prefix⟩).isInfix)
            · have hsuf2 : q2 <:+ q := by rw [hqeq]; exact List.suffix_cons c q2
              have : q2 <+: cs := transferPre q p r h1 h4 cs q2 hq2ne hsuf2 hq2
              exact h0 (by rw [hqeq]; exact (List.cons_prefix_cons.2 ⟨rfl, this⟩).isInfix)
        · have hlen : cs.length ≤ n := by simp at hs; omega
          exact ih cs hlen h0cs hA

/-- A prefix of the input that is a suffix of `q` is kept as a prefix by the
rewrite, provided no nonempty suffix of `q` is a prefix of the pattern `p`,
and `p` does not occur inside `q`. -/
theorem presTransfer (q p r : List Char)
    (hD : ∀ t : List Char, t ≠ [] → t <:+ q → ¬ t <+: p)
    (hE2 : ¬ p <:+: q) :
    ∀ s t : List Char, t <:+ q → t <+: s → t <+: replaceAll p r s := by
  suffices H : ∀ n : Nat, ∀ s : List Char, s.length ≤ n →
      ∀ t : List Char, t <:+ q → t <+: s → t <+: replaceAll p r s by
    intro s; exact H s.length s le_rfl
  intro n
  induction n with
  | zero =>
    intro s hs t hsuf hpre
    have : s = [] := by cases s with | nil => rfl | cons c cs => simp at hs
    subst this
    rw [List.prefix_nil.1 hpre, replaceAll_nil]
  | succ n ih =>
    intro s hs t hsuf hpre
    rcases eq_or_ne t [] with rfl | htne
    · exact List.nil_prefix
    cases s with
    | nil => exact absurd (List.prefix_nil.1 hpre) htne
    | cons c cs =>
      by_cases hc : p ≠ [] ∧ p <+: c :: cs
      · rcases List.prefix_or_prefix_of_prefix hpre hc.2 with hA | hA
        · exact absurd hA (hD t htne hsuf)
        · exact absurd (hA.isInfix.trans hsuf.isInfix) hE2
      · rw [replaceAll_neg hc]
        rcases List.prefix_cons_iff.1 hpre with h0 | ⟨t2, rfl, ht2⟩
        · exact absurd h0 htne
        · have hsuf2 : t2 <:+ q := (List.suffix_cons c t2).trans hsuf
          have hlen : cs.length ≤ n := by simp at hs; omega
          exact List.cons_prefix_cons.2 ⟨rfl, ih cs hlen t2 hsuf2 ht2⟩

/-- An occurrence of `q` survives the rewrite, provided `q` and the pattern
`p` do not overlap each other. -/
theorem replaceAll_keeps (q p r : List Char) (hq : q ≠ [])
    (hE1 : ¬ q <:+: p) (hE2 : ¬ p <:+: q)
    (hE3 : ∀ t : List Char, t ≠ [] → t <:+ p → ¬ t <+: q)
    (hE4 : ∀ t : List Char, t ≠ [] → t <:+ q → ¬ t <+: p) :
    ∀ s : List Char, q <:+: s → q <:+: replaceAll p r s := by
  suffices H : ∀ n : Nat, ∀ s : List Char, s.length ≤ n →
      q <:+: s → q <:+: replaceAll p r s by
    intro s; exact H s.length s le_rfl
  intro n
  induction n with
  | zero =>
    intro s hs h0
    have : s = [] := by cases s with | nil => rfl | cons c cs => simp at hs
    subst this
    exact absurd (List.infix_nil.1 h0) hq
  | succ n ih =>
    intro s hs h0
    cases s with
    | nil => exact absurd (List.infix_nil.1 h0) hq
    | cons c cs =>
      by_cases hc : p ≠ [] ∧ p <+: c :: cs
      · rw [replaceAll_pos hc]
        have hsplit : c :: cs = p ++ List.drop p.length (c :: cs) := prefix_drop_eq hc.2
        rw [hsplit] at h0
        rcases infixAppendCases h0 with hA | hA | ⟨a, b, heq, ha, hb, hsa, hpb⟩
        · exact absurd hA hE1
        · have hlen : (List.drop p.length (c :: cs)).length ≤ n := by
            have : 1 ≤ p.length := by
              cases p with
              | nil => exact absurd rfl hc.1
              | cons x xs => simp
            simp only [List.length_drop, List.length_cons]
            simp at hs
            omega
          exact (ih _ hlen hA).trans (List.suffix_append r _).isInfix
        · exact absurd ⟨b, heq.symm⟩ (hE3 a ha hsa)
      · rw [replaceAll_neg hc]
        rcases List.infix_cons_iff.1 h0 with hA | hA
        · have := presTransfer q p r hE4 hE2 (c :: cs) q List.suffix_rfl hA
          rw [replaceAll_neg hc] at this
          exact this.isInfix
        · have hlen : cs.length ≤ n := by simp at hs; omega
          exact (ih cs hlen hA).trans (List.suffix_cons c _).isInfix

/-- If the pattern occurs, the replacement occurs in the output. -/
theorem replaceAll_gives (p r : List Char) (hp : p ≠ []) :
    ∀ s : List Char, p <:+: s → r <:+: replaceAll p r s := by
  suffices H : ∀ n : Nat, ∀ s : List Char, s.length ≤ n →
      p <:+: s → r <:+: replaceAll p r s by
    intro s; exact H s.length s le_rfl
  intro n
  induction n with
  | zero =>
    intro s hs h0
    have : s = [] := by cases s with | nil => rfl | cons c cs => simp at hs
    subst this
    exact absurd (List.infix_nil.1 h0) hp
  | succ n ih =>
    intro s hs h0
    cases s with
    | nil => exact absurd (List.infix_nil.1 h0) hp
    | cons c cs =>
      by_cases hc : p ≠ [] ∧ p <+: c :: cs
      · rw [replaceAll_pos hc]
        exact (List.prefix_append r _).isInfix
      · rw [replaceAll_neg hc]
        rcases List.infix_cons_iff.1 h0 with hA | hA
        · exact absurd ⟨hp, hA⟩ hc
        · have hlen : cs.length ≤ n := by simp at hs; omega
          exact (ih cs hlen hA).trans (List.suffix_cons c _).isInfix

/-- If the pattern is absent the rewrite is the identity. -/
theorem replaceAll_absent (p r : List Char) :
    ∀ s : List Char, ¬ p <:+: s → replaceAll p r s = s := by
  intro s
  induction s with
  | nil => intro _; exact replaceAll_nil
  | cons c cs ih =>
    intro h0
    by_cases hc : p ≠ [] ∧ p <+: c :: cs
    · exact absurd hc.2.isInfix h0
    · rw [replaceAll_neg hc, ih fun hx => h0 (hx.trans (List.suffix_cons c cs).isInfix)]

theorem replaceAll_ne_nil (p r : List Char) (hr : r ≠ []) :
    ∀ s : List Char, s ≠ [] → replaceAll p r s ≠ [] := by
  intro s hsne
  cases s with
  | nil => exact absurd rfl hsne
  | cons c cs =>
    by_cases hc : p ≠ [] ∧ p <+: c :: cs
    · rw [replaceAll_pos hc]
      simp [hr]
    · rw [replaceAll_neg hc]
      simp

/-- When pattern and replacement are nonempty and end in the same character,
the rewrite preserves the last character of the text. -/
theorem replaceAll_getLast (p r : List Char) (hr : r ≠ [])
    (hl : p.getLast? = r.getLast?) :
    ∀ s : List Char, (replaceAll p r s).getLast? = s.getLast? := by
  suffices H : ∀ n : Nat, ∀ s : List Char, s.length ≤ n →
      (replaceAll p r s).getLast? = s.getLast? by
    intro s; exact H s.length s le_rfl
  intro n
  induction n with
  | zero =>
    intro s hs
    have : s = [] := by cases s with | nil => rfl | cons c cs => simp at hs
    subst this
    rw [replaceAll_nil]
  | succ n ih =>
    intro s hs
    cases s with
    | nil => rw [replaceAll_nil]
    | cons c cs =>
      by_cases hc : p ≠ [] ∧ p <+: c :: cs
      · rw [replaceAll_pos hc]
        have hsplit : c :: cs = p ++ List.drop p.length (c :: cs) := prefix_drop_eq hc.2
        have hlen : (List.drop p.length (c :: cs)).length ≤ n := by
          have : 1 ≤ p.length := by
            cases p with
            | nil => exact absurd rfl hc.1
            | cons x xs => simp
          simp only [List.length_drop, List.length_cons]
          simp at hs
          omega
        conv_rhs => rw [hsplit]
        rw [List.getLast?_append, List.getLast?_append, ih _ hlen, hl]
      · rw [replaceAll_neg hc]
        cases cs with
        | nil => rw [replaceAll_nil]
        | cons c2 cs2 =>
          have hlen : (c2 :: cs2).length ≤ n := by simp at hs; simp; omega
          have hne : replaceAll p r (c2 :: cs2) ≠ [] :=
            replaceAll_ne_nil p r hr (c2 :: cs2) (by simp)
          rcases List.exists_cons_of_ne_nil hne with ⟨d, ds, hds⟩
          rw [hds, List.getLast?_cons_cons, ← hds, ih _ hlen, List.getLast?_cons_cons]

theorem ne_nil_of_not_isEmpty {q : List Char} (h : (!(q.isEmpty)) = true) :
    q ≠ [] := by
  intro h0
  subst h0
  simp at h

theorem replaceAll_preserve_absentB {q : List Char} (pr : List Char × List Char)
    (h : ruleOkB q pr = true) :
    ∀ s : List Char, ¬ q <:+: s → ¬ q <:+: replaceAll pr.1 pr.2 s := by
  rw [ruleOkB] at h
  simp only [Bool.and_eq_true] at h
  exact replaceAll_preserve_absent q pr.1 pr.2 (ne_nil_of_not_isEmpty h.1.1.1.1)
    (noSufPre_prop h.1.1.1.2) (noSufPre_prop h.1.1.2)
    (notInfix_prop h.1.2) (notInfix_prop h.2)

theorem replaceAll_keepsB {q : List Char} (pr : List Char × List Char)
    (h : keepOkB q pr = true) :
    ∀ s : List Char, q <:+: s → q <:+: replaceAll pr.1 pr.2 s := by
  rw [keepOkB] at h
  simp only [Bool.and_eq_true] at h
  exact replaceAll_keeps q pr.1 pr.2 (ne_nil_of_not_isEmpty h.1.1.1.1)
    (notInfix_prop h.1.1.1.2) (notInfix_prop h.1.1.2)
    (noSufPre_prop h.1.2) (noSufPre_prop h.2)

theorem replaceAll_elimB (pr : List Char × List Char)
    (h : elimOkB pr = true) :
    ∀ s : List Char, ¬ pr.1 <:+: replaceAll pr.1 pr.2 s := by
  rw [elimOkB] at h
  simp only [Bool.and_eq_true] at h
  exact replaceAll_elim pr.1 pr.2 (ne_nil_of_not_isEmpty h.1.1.1.1)
    (noSufPre_prop h.1.1.1.2) (noSufPre_prop h.1.1.2)
    (notInfix_prop h.1.2) (notInfix_prop h.2)

theorem applyRules_cons (pr : List Char × List Char)
    (rs : List (List Char × List Char)) (s : List Char) :
    applyRules (pr :: rs) s = applyRules rs (replaceAll pr.1 pr.2 s) := by
  rw [applyRules, applyRules, List.foldl_cons]

theorem applyRules_append (rs1 rs2 : List (List Char × List Char)) (s : List Char) :
    applyRules (rs1 ++ rs2) s = applyRules rs2 (applyRules rs1 s) := by
  rw [applyRules, applyRules, applyRules, List.foldl_append]

theorem applyRules_preserve_absent (q : List Char)
    (rs : List (List Char × List Char)) (hok : rs.all (ruleOkB q) = true) :
    ∀ s : List Char, ¬ q <:+: s → ¬ q <:+: applyRules rs s := by
  induction rs with
  | nil => intro s h; exact h
  | cons pr rs ih =>
    intro s h
    rw [List.all_cons, Bool.and_eq_true] at hok
    rw [applyRules_cons]
    exact ih hok.2 _ (replaceAll_preserve_absentB _ hok.1 s h)

theorem applyRules_keeps (q : List Char)
    (rs : List (List Char × List Char)) (hok : rs.all (keepOkB q) = true) :
    ∀ s : List Char, q <:+: s → q <:+: applyRules rs s := by
  induction rs with
  | nil => intro s h; exact h
  | cons pr rs ih =>
    intro s h
    rw [List.all_cons, Bool.and_eq_true] at hok
    rw [applyRules_cons]
    exact ih hok.2 _ (replaceAll_keepsB _ hok.1 s h)

theorem applyRules_elim (rs1 rs2 : List (List Char × List Char))
    (p r : List Char) (h1 : elimOkB (p, r) = true)
    (h2 : rs2.all (ruleOkB p) = true) :
    ∀ s : List Char, ¬ p <:+: applyRules (rs1 ++ (p, r) :: rs2) s := by
  intro s
  rw [applyRules_append, applyRules_cons]
  exact applyRules_preserve_absent p rs2 h2 _ (replaceAll_elimB _ h1 _)

theorem applyRules_absent (rs : List (List Char × List Char)) :
    ∀ s : List Char, (∀ pr ∈ rs, ¬ pr.1 <:+: s) → applyRules rs s = s := by
  induction rs with
  | nil => intro s _; rfl
  | cons pr rs ih =>
    intro s h
    rw [applyRules_cons, replaceAll_absent pr.1 pr.2 s (h pr (by simp))]
    exact ih s fun pr2 hm => h pr2 (by simp [hm])

theorem applyRules_elim_all (rs : List (List Char × List Char))
    (h : crossOkB rs = true) :
    ∀ s : List Char, ∀ pr ∈ rs, ¬ pr.1 <:+: applyRules rs s := by
  intro s pr hm
  have hpr := (List.all_eq_true.1 h) pr hm
  rw [Bool.and_eq_true] at hpr
  rcases List.append_of_mem hm with ⟨rs1, rs2, hsplit⟩
  have h2 : rs2.all (ruleOkB pr.1) = true := by
    rw [hsplit, List.all_append, List.all_cons] at hpr
    rw [Bool.and_eq_true, Bool.and_eq_true] at hpr
    exact hpr.2.2.2
  have := applyRules_elim rs1 rs2 pr.1 pr.2 hpr.1 h2 s
  rw [← hsplit] at this
  exact this

/-- C3: applying the manifest rewrite rule set of `update_cargo_file` twice
in succession yields exactly the same content as applying it once, for every
manifest content and every file path. -/
theorem c3_idempotent : ∀ path content : List Char,
    updateCargoContent path (updateCargoContent path content) =
      updateCargoContent path content := by
  intro path c
  by_cases hm : isInfB methodsTok path = true
  · simp only [updateCargoContent, hm, if_true]
    exact replaceAll_absent _ _ _ (replaceAll_elimB (bmethodsPat, bmethodsRep) (by decide) c)
  · by_cases ha : isInfB appsTok path = true
    · simp [updateCargoContent, hm, ha]
      have habs : ∀ pr ∈ generalRules,
          ¬ pr.1 <:+: replaceAll steelGit steelGitHost (applyRules generalRules c) := by
        intro pr hmem
        have hok : ruleOkB pr.1 (steelGit, steelGitHost) = true := by
          have hall : generalRules.all (fun pr => ruleOkB pr.1 (steelGit, steelGitHost)) = true := by
            decide
          exact (List.all_eq_true.1 hall) pr hmem
        exact replaceAll_preserve_absentB _ hok _
          (applyRules_elim_all generalRules (by decide) c pr hmem)
      rw [applyRules_absent generalRules _ habs]
      exact replaceAll_absent _ _ _
        (replaceAll_elimB (steelGit, steelGitHost) (by decide) _)
    · simp [updateCargoContent, hm, ha]
      exact applyRules_absent generalRules _ (applyRules_elim_all generalRules (by decide) c)

theorem applyRules_single (pr : List Char × List Char) (s : List Char) :
    applyRules [pr] s = replaceAll pr.1 pr.2 s := rfl

/-- Route a pattern occurrence through a rule list: the rules before `(p, r)`
keep `p` intact, `(p, r)` produces `r`, and the rules after keep `r`. -/
theorem applyRules_route (rs1 rs2 : List (List Char × List Char)) (p r : List Char)
    (hp : (!(p.isEmpty)) = true)
    (h1 : rs1.all (keepOkB p) = true)
    (h2 : rs2.all (keepOkB r) = true) :
    ∀ s : List Char, p <:+: s → r <:+: applyRules (rs1 ++ (p, r) :: rs2) s := by
  intro s hs
  rw [applyRules_append, applyRules_cons]
  exact applyRules_keeps r rs2 h2 _
    (replaceAll_gives p r (ne_nil_of_not_isEmpty hp) _ (applyRules_keeps p rs1 h1 s hs))

/-- C5: under a `/apps/` path (general rule set), a rewritable risc0-steel
declaration is replaced by the remote declaration carrying
`features = ["host"]`; away from `/apps/`, the rewrite introduces no host
feature flag. -/
theorem c5_apps_feature : ∀ path content : List Char,
    (isInfB methodsTok path = false → isInfB appsTok path = true →
      ∀ p ∈ steelPats, p <:+: content →
        steelGitHost <:+: updateCargoContent path content) ∧
    (isInfB methodsTok path = false → isInfB appsTok path = false →
      ¬ hostFlag <:+: content →
      ¬ hostFlag <:+: updateCargoContent path content) := by
  intro path content
  constructor
  · intro hm ha p hp hocc
    simp only [updateCargoContent, hm, ha, Bool.false_eq_true, if_false, if_true]
    have hgit : steelGit <:+: applyRules generalRules content := by
      simp only [steelPats, List.mem_cons, List.mem_singleton] at hp
      rcases hp with rfl | rfl | rfl | rfl | h0
      · exact applyRules_route
          [(buildEthPathPat, buildEthGit), (contractsPathPat, contractsGit)]
          [(steelPathPat2, steelGit), (steelPathPat3, steelGit),
           (contractsWsPat, contractsGit), (steelWsPat, steelGit),
           (steelWsHostPat, steelGitHost)]
          steelPathPat1 steelGit (by decide) (by decide) (by decide) content hocc
      · exact applyRules_route
          [(buildEthPathPat, buildEthGit), (contractsPathPat, contractsGit),
           (steelPathPat1, steelGit)]
          [(steelPathPat3, steelGit), (contractsWsPat, contractsGit),
           (steelWsPat, steelGit), (steelWsHostPat, steelGitHost)]
          steelPathPat2 steelGit (by decide) (by decide) (by decide) content hocc
      · exact applyRules_route
          [(buildEthPathPat, buildEthGit), (contractsPathPat, contractsGit),
           (steelPathPat1, steelGit), (steelPathPat2, steelGit)]
          [(contractsWsPat, contractsGit), (steelWsPat, steelGit),
           (steelWsHostPat, steelGitHost)]
          steelPathPat3 steelGit (by decide) (by decide) (by decide) content hocc
      · exact applyRules_route
          [(buildEthPathPat, buildEthGit), (contractsPathPat, contractsGit),
           (steelPathPat1, steelGit), (steelPathPat2, steelGit),
           (steelPathPat3, steelGit), (contractsWsPat, contractsGit)]
          [(steelWsHostPat, steelGitHost)]
          steelWsPat steelGit (by decide) (by decide) (by decide) content hocc
      · exact absurd h0 (by simp)
    exact replaceAll_gives steelGit steelGitHost (by decide) _ hgit
  · intro hm ha h0
    simp only [updateCargoContent, hm, ha, Bool.false_eq_true, if_false]
    have hsplit : applyRules generalRules content =
        replaceAll steelWsHostPat steelGitHost
          (applyRules
            [(buildEthPathPat, buildEthGit), (contractsPathPat, contractsGit),
             (steelPathPat1, steelGit), (steelPathPat2, steelGit),
             (steelPathPat3, steelGit), (contractsWsPat, contractsGit),
             (steelWsPat, steelGit)] content) := by
      rw [show generalRules =
            [(buildEthPathPat, buildEthGit), (contractsPathPat, contractsGit),
             (steelPathPat1, steelGit), (steelPathPat2, steelGit),
             (steelPathPat3, steelGit), (contractsWsPat, contractsGit),
             (steelWsPat, steelGit)] ++ [(steelWsHostPat, steelGitHost)] from rfl,
         applyRules_append, applyRules_single]
    have h7 : ¬ hostFlag <:+:
        applyRules
          [(buildEthPathPat, buildEthGit), (contractsPathPat, contractsGit),
           (steelPathPat1, steelGit), (steelPathPat2, steelGit),
           (steelPathPat3, steelGit), (contractsWsPat, contractsGit),
           (steelWsPat, steelGit)] content :=
      applyRules_preserve_absent hostFlag _ (by decide) content h0
    have h8 : ¬ steelWsHostPat <:+:
        applyRules
          [(buildEthPathPat, buildEthGit), (contractsPathPat, contractsGit),
           (steelPathPat1, steelGit), (steelPathPat2, steelGit),
           (steelPathPat3, steelGit), (contractsWsPat, contractsGit),
           (steelWsPat, steelGit)] content := by
      intro hx
      exact h7 ((show hostFlag <:+: steelWsHostPat by decide).trans hx)
    rw [hsplit, replaceAll_absent _ _ _ h8]
    exact h7

theorem isInf_to {a b : List Char} (h : isInfB a b = true) : a <:+: b := by
  rcases List.any_eq_true.1 h with ⟨t, hmem, hpre⟩
  exact List.infix_iff_prefix_suffix.2
    ⟨t, List.isPrefixOf_iff_prefix.1 hpre, (List.mem_tails t b).1 hmem⟩

/-- The openzeppelin substitution keeps `ozLine` present: a match can only
overlap an `ozLine` occurrence by consuming its leading `ozA`, which the
replacement immediately re-creates. -/
theorem ozPres : ∀ s : List Char, ozLine <:+: s →
    ozLine <:+: replaceAll ozPat ozRep s := by
  suffices H : ∀ n : Nat, ∀ s : List Char, s.length ≤ n →
      ozLine <:+: s → ozLine <:+: replaceAll ozPat ozRep s by
    intro s; exact H s.length s le_rfl
  intro n
  induction n with
  | zero =>
    intro s hs h0
    have : s = [] := by cases s with | nil => rfl | cons c cs => simp at hs
    subst this
    exact absurd (List.infix_nil.1 h0) (by decide)
  | succ n ih =>
    intro s hs h0
    cases s with
    | nil => exact absurd (List.infix_nil.1 h0) (by decide)
    | cons c cs =>
      by_cases hc : ozPat ≠ [] ∧ ozPat <+: c :: cs
      · rw [replaceAll_pos hc]
        have hsplit : c :: cs = ozPat ++ List.drop ozPat.length (c :: cs) :=
          prefix_drop_eq hc.2
        have hlen : (List.drop ozPat.length (c :: cs)).length ≤ n := by
          simp only [List.length_drop, List.length_cons]
          simp at hs
          have : 1 ≤ ozPat.length := by decide
          omega
        rw [hsplit] at h0
        rcases infixAppendCases h0 with hA | hA | ⟨a, b, heq, ha, hb, hsa, hpb⟩
        · exact absurd hA (notInfix_prop (by decide))
        · exact (ih _ hlen hA).trans (List.suffix_append ozRep _).isInfix
        · have haA : a = ozA :=
            onlyStraddle_prop (by decide) a ha hsa ⟨b, heq.symm⟩
          subst haA
          have hbB : b = ozB := by
            have h5 : ozA ++ ozB = ozA ++ b := by
              rw [← heq]; decide
            exact (List.append_cancel_left h5).symm
          subst hbB
          have hOzB : ozB <+: replaceAll ozPat ozRep (List.drop ozPat.length (c :: cs)) :=
            presTransfer ozLine ozPat ozRep (noSufPre_prop (by decide))
              (notInfix_prop (by decide)) _ ozB (by decide) hpb
          rcases hOzB with ⟨t, ht⟩
          refine ⟨ozRepPre, t, ?_⟩
          rw [← ht]
          rw [show ozRep = ozRepPre ++ ozA from by decide,
              show ozLine = ozA ++ ozB from by decide]
          simp [List.append_assoc]
      · rcases List.infix_cons_iff.1 h0 with hA | hA
        · have := presTransfer ozLine ozPat ozRep (noSufPre_prop (by decide))
            (notInfix_prop (by decide)) (c :: cs) ozLine List.suffix_rfl hA
          exact this.isInfix
        · rw [replaceAll_neg hc]
          have hlen : cs.length ≤ n := by simp at hs; omega
          exact (ih cs hlen hA).trans (List.suffix_cons c _).isInfix

/-- The openzeppelin substitution cannot create an `ozLine` occurrence: the
only way the replacement's tail could start one requires the consumed match
to have already ended with the same `ozA`, so the occurrence was already
there. -/
theorem ozAbsent : ∀ s : List Char, ¬ ozLine <:+: s →
    ¬ ozLine <:+: replaceAll ozPat ozRep s := by
  suffices H : ∀ n : Nat, ∀ s : List Char, s.length ≤ n →
      ¬ ozLine <:+: s → ¬ ozLine <:+: replaceAll ozPat ozRep s by
    intro s; exact H s.length s le_rfl
  intro n
  induction n with
  | zero =>
    intro s hs h0 habs
    have : s = [] := by cases s with | nil => rfl | cons c cs => simp at hs
    subst this
    rw [replaceAll_nil] at habs
    exact absurd (List.infix_nil.1 habs) (by decide)
  | succ n ih =>
    intro s hs h0 habs
    cases s with
    | nil =>
      rw [replaceAll_nil] at habs
      exact absurd (List.infix_nil.1 habs) (by decide)
    | cons c cs =>
      by_cases hc : ozPat ≠ [] ∧ ozPat <+: c :: cs
      · rw [replaceAll_pos hc] at habs
        have hsplit : c :: cs = ozPat ++ List.drop ozPat.length (c :: cs) :=
          prefix_drop_eq hc.2
        have hlen : (List.drop ozPat.length (c :: cs)).length ≤ n := by
          simp only [List.length_drop, List.length_cons]
          simp at hs
          have : 1 ≤ ozPat.length := by decide
          omega
        have h0d : ¬ ozLine <:+: List.drop ozPat.length (c :: cs) := by
          intro hx
          exact h0 (hx.trans (List.drop_suffix _ _).isInfix)
        rcases infixAppendCases habs with hA | hA | ⟨a, b, heq, ha, hb, hsa, hpb⟩
        · exact absurd hA (notInfix_prop (by decide))
        · exact ih _ hlen h0d hA
        · have haA : a = ozA :=
            onlyStraddle_prop (by decide) a ha hsa ⟨b, heq.symm⟩
          subst haA
          have hbB : b = ozB := by
            have h5 : ozA ++ ozB = ozA ++ b := by
              rw [← heq]; decide
            exact (List.append_cancel_left h5).symm
          subst hbB
          have hOzB : ozB <+: List.drop ozPat.length (c :: cs) :=
            transferPre ozLine ozPat ozRep (noSufPre_prop (by decide))
              (notInfix_prop (by decide)) _ ozB (by decide) (by decide) hpb
          rcases hOzB with ⟨t, ht⟩
          apply h0
          rw [hsplit, ← ht]
          rw [show ozPat = ozPatPre ++ ozA from by decide]
          refine ⟨ozPatPre, t, ?_⟩
          rw [show ozLine = ozA ++ ozB from by decide]
          simp [List.append_assoc]
      · rw [replaceAll_neg hc] at habs
        have h0cs : ¬ ozLine <:+: cs := by
          intro hx
          exact h0 (hx.trans (List.suffix_cons c cs).isInfix)
        rcases List.infix_cons_iff.1 habs with hA | hA
        · have hpre : ozLine <+: replaceAll ozPat ozRep (c :: cs) := by
            rw [replaceAll_neg hc]
            exact hA
          have := transferPre ozLine ozPat ozRep (noSufPre_prop (by decide))
            (notInfix_prop (by decide)) (c :: cs) ozLine (by decide)
            List.suffix_rfl hpre
          exact h0 this.isInfix
        · have hlen : cs.length ≤ n := by simp at hs; omega
          exact ih cs hlen h0cs hA

theorem replaceRemaps_getLast :
    ∀ c : List Char, (replaceRemaps c).getLast? = c.getLast? := by
  intro c
  rw [replaceRemaps,
      replaceAll_getLast r0Pat r0Rep (by decide) (by decide),
      replaceAll_getLast ozPat ozRep (by decide) (by decide),
      replaceAll_getLast fsPat fsRep (by decide) (by decide)]

/-- C4: if `ozLine` already occurs in the remapping content, the rewrite pass
performs no append and the ending is untouched; otherwise exactly one copy of
`ozLine` (plus a final newline) is appended, preceded by an inserted newline
exactly when the content did not already end in one. -/
theorem c4_remappings : ∀ content : List Char,
    (ozLine <:+: content →
      updateRemappingsContent content = replaceRemaps content ∧
      (updateRemappingsContent content).getLast? = content.getLast?) ∧
    (¬ ozLine <:+: content →
      updateRemappingsContent content =
        replaceRemaps content ++
          (if content.getLast? = some '\n' then [] else ['\n']) ++
          ozLine ++ ['\n']) := by
  intro content
  constructor
  · intro h
    have h1 : ozLine <:+: replaceAll fsPat fsRep content :=
      replaceAll_keepsB (fsPat, fsRep) (by decide) content h
    have h2 := ozPres _ h1
    have h3 : ozLine <:+: replaceRemaps content :=
      replaceAll_keepsB (r0Pat, r0Rep) (by decide) _ h2
    have hcond : isInfB ozLine (replaceRemaps content) = true := isInf_prop h3
    rw [updateRemappingsContent, if_pos hcond]
    exact ⟨rfl, replaceRemaps_getLast content⟩
  · intro h
    have h1 : ¬ ozLine <:+: replaceAll fsPat fsRep content :=
      replaceAll_preserve_absentB (fsPat, fsRep) (by decide) content h
    have h2 := ozAbsent _ h1
    have h3 : ¬ ozLine <:+: replaceRemaps content :=
      replaceAll_preserve_absentB (r0Pat, r0Rep) (by decide) _ h2
    have hcond : isInfB ozLine (replaceRemaps content) = false := by
      cases heq : isInfB ozLine (replaceRemaps content) with
      | false => rfl
      | true => exact absurd (isInf_to heq) h3
    rw [updateRemappingsContent, hcond]
    rw [replaceRemaps_getLast content]
    by_cases hnl : content.getLast? = some '\n'
    · rw [if_pos hnl, if_pos hnl]
      simp
    · rw [if_neg hnl, if_neg hnl]
      simp [List.append_assoc]

/-- Witness for C5 at concrete inputs: an apps-path manifest declaring
risc0-steel by workspace inheritance gains the host feature flag; the same
manifest away from apps does not. -/
theorem c5_witness :
    steelGitHost <:+: updateCargoContent (("examples/apps/Cargo.toml").toList) steelWsPat ∧
    ¬ hostFlag <:+: updateCargoContent (("examples/core/Cargo.toml").toList) steelWsPat :=
  ⟨(c5_apps_feature (("examples/apps/Cargo.toml").toList) steelWsPat).1
      (by decide) (by decide) steelWsPat (by decide) (by decide),
   (c5_apps_feature (("examples/core/Cargo.toml").toList) steelWsPat).2
      (by decide) (by decide) (by decide)⟩

/-- Witness for C4 at concrete inputs: content already holding `ozLine` is
returned without an append; content without it gets exactly one appended
copy. -/
theorem c4_witness :
    updateRemappingsContent ozLine = replaceRemaps ozLine ∧
    updateRemappingsContent fsPat =
      replaceRemaps fsPat ++
        (if fsPat.getLast? = some '\n' then [] else ['\n']) ++ ozLine ++ ['\n'] :=
  ⟨((c4_remappings ozLine).1 (by decide)).1,
   (c4_remappings fsPat).2 (by decide)⟩

/-- C7 counterexample: a probe process that ran but exited non-zero — the
version probe still returns the captured stdout instead of signalling
failure, contradicting the claim that every process-runner invocation
signals failure on a non-zero exit. -/
theorem c7_counterexample :
    getCommandVersion (ProcOutcome.ran false ("rustc 1.83.0") ("error")) ≠ none := by
  decide

/-- C7 amended: `run_git_command` signals failure exactly on launch failure
(with the launch message) or non-zero exit (with the captured stderr) and
returns unit — not the stdout — on success; `get_command_version` fails only
when the probe cannot be launched and otherwise returns the captured stdout
regardless of exit status. -/
theorem c7_amended : ∀ (m out err : String) (ok : Bool),
    runGitCommandRes (ProcOutcome.launchFail m) = Except.error m ∧
    runGitCommandRes (ProcOutcome.ran true out err) = Except.ok () ∧
    runGitCommandRes (ProcOutcome.ran false out err) = Except.error err ∧
    getCommandVersion (ProcOutcome.launchFail m) = none ∧
    getCommandVersion (ProcOutcome.ran ok out err) = some out := by
  intro m out err ok
  exact ⟨rfl, rfl, rfl, rfl, rfl⟩

/-- C6 evaluation at the failing input: create-project on an existing name
prints the already-exists diagnostic and attempts no clone, but the process
exit code is 0, not non-zero; only the Setup branch exits 1 on failure. -/
theorem c6_code_eval :
    (mainNew true ("demo") oOk wExist).exitCode = 0 ∧
    (mainNew true ("demo") oOk wExist).msgs = [Msg.alreadyExists ("demo")] ∧
    FsEv.cloneRepo ("demo") ∉ (mainNew true ("demo") oOk wExist).events ∧
    (mainSetup (some ("demo")) oSetupOk wSetup0).2 = 1 := by
  decide

/-- C2: when the target path already exists, both the `main` check and the
`init_project` precondition fail the run immediately: no event is emitted,
the world is untouched, and no success is reported. -/
theorem c2_no_mutation : ∀ (depsOk : Bool) (name : String) (o : InitOracle) (w : World),
    w.projExists = true →
    initProject name o w = { ev := [], w := w, err := some (alreadyExistsMsg name) } ∧
    (mainNew depsOk name o w).events = [] ∧
    (mainNew depsOk name o w).world = w ∧
    Msg.createdOk name ∉ (mainNew depsOk name o w).msgs := by
  intro d name o w h
  have hm : (mainNew d name o w).events = [] ∧ (mainNew d name o w).world = w ∧
      Msg.createdOk name ∉ (mainNew d name o w).msgs := by
    rw [mainNew]
    by_cases hd : d = false
    · rw [if_pos hd]; exact ⟨rfl, rfl, by simp⟩
    · rw [if_neg hd]
      by_cases ht : trimEmpty name = true
      · rw [if_pos ht]; exact ⟨rfl, rfl, by simp⟩
      · rw [if_neg ht, if_pos h]; exact ⟨rfl, rfl, by simp⟩
  exact ⟨by rw [initProject, if_pos h], hm.1, hm.2.1, hm.2.2⟩

/-- Witness for C2 at a concrete world whose `demo` path already exists. -/
theorem c2_witness :
    (mainNew true ("demo") oOk wExist).events = [] ∧
    Msg.createdOk ("demo") ∉ (mainNew true ("demo") oOk wExist).msgs :=
  ⟨(c2_no_mutation true ("demo") oOk wExist rfl).2.1,
   (c2_no_mutation true ("demo") oOk wExist rfl).2.2.2⟩

/-- C9: with the nested example absent, `setup_project_files` still succeeds,
the examples parent is deleted when present, and every plain root file is
deleted. -/
theorem c9_tolerates_absence : ∀ (name : String) (fs : FsTree),
    fs.nested = none →
    (setupProjectFiles name fs).2 =
      Except.ok { nested := none, examplesDir := false, counterRoot := none,
                  rootFiles := [], moved := fs.moved ++ fs.counterRoot.getD [] } ∧
    (fs.examplesDir = true →
      FsEv.removeDirAll (name ++ ("/examples")) ∈ (setupProjectFiles name fs).1) ∧
    (∀ f ∈ fs.rootFiles,
      FsEv.removeFile (name ++ ("/" ++ f)) ∈ (setupProjectFiles name fs).1) := by
  intro name fs h
  rcases fs with ⟨nested, exDir, cRoot, rFiles, mv⟩
  simp only at h
  subst h
  cases cRoot <;> cases exDir <;>
    refine ⟨by simp [setupProjectFiles], by simp [setupProjectFiles], ?_⟩ <;>
    · intro f hf
      simp only at hf
      simp [setupProjectFiles]
      exact ⟨f, hf, rfl⟩

/-- Witness for C9 at a concrete tree with the nested example absent. -/
theorem c9_witness :
    (setupProjectFiles ("demo") fsA).2 =
      Except.ok { nested := none, examplesDir := false, counterRoot := none,
                  rootFiles := [], moved := fsA.moved ++ fsA.counterRoot.getD [] } ∧
    FsEv.removeDirAll (("demo") ++ ("/examples")) ∈ (setupProjectFiles ("demo") fsA).1 :=
  ⟨(c9_tolerates_absence ("demo") fsA rfl).1,
   (c9_tolerates_absence ("demo") fsA rfl).2.1 rfl⟩

/-- Shape of a test-prep body run: it only appends events tagged with the
current directory and never changes the world (in particular the working
directory stays what it was on entry). -/
theorem runSetupBody_shape (o : SetupOracle) (w : SetupWorld) (ev0 : List SEv) :
    ∃ rest : List SEv, (runSetupBody o w ev0).ev = ev0 ++ rest ∧
      (∀ e ∈ rest, evDir e = some w.cwd) ∧ (runSetupBody o w ev0).w = w := by
  rw [runSetupBody]
  by_cases h1 : w.cwd ∈ w.e2eIn
  · rw [if_pos h1]
    cases hb : o.build with
    | launchFail m =>
      exact ⟨_, rfl, by intro e he; fin_cases he <;> rfl, rfl⟩
    | ran ok out berr =>
      dsimp only
      by_cases hok : ok = false
      · rw [if_pos hok]
        exact ⟨_, rfl, by intro e he; fin_cases he <;> rfl, rfl⟩
      · rw [if_neg hok]
        cases hc : o.chmodTest with
        | launchFail m =>
          exact ⟨_, rfl, by intro e he; fin_cases he <;> rfl, rfl⟩
        | ran ok2 out2 cerr =>
          dsimp only
          by_cases hok2 : ok2 = false
          · rw [if_pos hok2]
            exact ⟨_, rfl, by intro e he; fin_cases he <;> rfl, rfl⟩
          · rw [if_neg hok2]
            cases he : o.envWriteErr with
            | some e0 =>
              exact ⟨_, rfl, by intro e he; fin_cases he <;> rfl, rfl⟩
            | none =>
              cases hce : o.chmodEnv with
              | launchFail m =>
                exact ⟨_, rfl, by intro e he; fin_cases he <;> rfl, rfl⟩
              | ran ok3 out3 eerr =>
                exact ⟨_, rfl, by intro e he; fin_cases he <;> rfl, rfl⟩
  · rw [if_neg h1]
    exact ⟨_, rfl, by intro e he; fin_cases he; rfl, rfl⟩

/-- A successful test-prep body run wrote `env.sh` with the synthesized
content and invoked chmod on it, inside the entry working directory. -/
theorem runSetupBody_success (o : SetupOracle) (w : SetupWorld) (ev0 : List SEv)
    (h : (runSetupBody o w ev0).err = none) :
    SEv.writeFile w.cwd ("env.sh") (envFileContent w.bonsaiKeySet) ∈ (runSetupBody o w ev0).ev ∧
    SEv.chmodF w.cwd ("env.sh") ∈ (runSetupBody o w ev0).ev := by
  rw [runSetupBody] at h ⊢
  by_cases h1 : w.cwd ∈ w.e2eIn
  · rw [if_pos h1] at h ⊢
    cases hb : o.build with
    | launchFail m => rw [hb] at h; simp at h
    | ran ok out berr =>
      rw [hb] at h
      dsimp only at h ⊢
      by_cases hok : ok = false
      · rw [if_pos hok] at h; simp at h
      · rw [if_neg hok] at h ⊢
        cases hc : o.chmodTest with
        | launchFail m => rw [hc] at h; simp at h
        | ran ok2 out2 cerr =>
          rw [hc] at h
          dsimp only at h ⊢
          by_cases hok2 : ok2 = false
          · rw [if_pos hok2] at h; simp at h
          · rw [if_neg hok2] at h ⊢
            cases hen : o.envWriteErr with
            | some e0 => rw [hen] at h; simp at h
            | none =>
              rw [hen] at h
              dsimp only at h ⊢
              cases hce : o.chmodEnv with
              | launchFail m => rw [hce] at h; simp at h
              | ran ok3 out3 eerr =>
                constructor <;> simp
  · rw [if_neg h1] at h
    simp at h

/-- C10: given an existing directory argument, the test-prep pipeline's very
first action changes the working directory to it, every later action (script
check, build, chmods, env.sh creation) runs inside it, and the change is
never undone. -/
theorem c10_chdir : ∀ (d : String) (o : SetupOracle) (w : SetupWorld),
    d ∈ w.dirs →
    (runSetup (some d) o w).ev.head? = some (SEv.chdir d) ∧
    (∀ e ∈ (runSetup (some d) o w).ev.tail, evDir e = some d) ∧
    (runSetup (some d) o w).w.cwd = d := by
  intro d o w hd
  have hrw : runSetup (some d) o w = runSetupBody o { w with cwd := d } [SEv.chdir d] := by
    rw [runSetup, if_pos hd]
  rcases runSetupBody_shape o { w with cwd := d } [SEv.chdir d] with ⟨rest, hev, hdir, hw⟩
  rw [hrw, hev, hw]
  exact ⟨rfl, hdir, rfl⟩

/-- Witness for C10: a run with directory argument `proj`. -/
theorem c10_witness :
    (runSetup (some ("proj")) oSetupOk wSetupDir).ev.head? = some (SEv.chdir ("proj")) ∧
    (∀ e ∈ (runSetup (some ("proj")) oSetupOk wSetupDir).ev.tail,
      evDir e = some ("proj")) ∧
    (runSetup (some ("proj")) oSetupOk wSetupDir).w.cwd = ("proj") :=
  c10_chdir ("proj") oSetupOk wSetupDir (by decide)

/-- C8 counterexample: a successful test-prep run in an environment where
`BONSAI_API_KEY` is already set writes an `env.sh` without the commented
placeholder, contradicting the claim that every successful run includes
it. -/
theorem c8_counterexample :
    (runSetup none oSetupOk wSetupKey).err = none ∧
    SEv.writeFile ("proj") ("env.sh") (envFileContent true) ∈
      (runSetup none oSetupOk wSetupKey).ev ∧
    ¬ bonsaiPlaceholder <:+: envFileContent true :=
  ⟨by decide, by decide, notInfix_prop (by decide)⟩

/-- C8 amended: every successful test-prep run writes `env.sh` with the
fixed connection defaults and invokes chmod +x on it; the commented
placeholder for the secret key is included exactly when `BONSAI_API_KEY` is
absent from the invoking environment. -/
theorem c8_amended : ∀ (dir : Option String) (o : SetupOracle) (w : SetupWorld),
    (runSetup dir o w).err = none →
    SEv.writeFile (setupDirOf dir w) ("env.sh") (envFileContent w.bonsaiKeySet) ∈
      (runSetup dir o w).ev ∧
    SEv.chmodF (setupDirOf dir w) ("env.sh") ∈ (runSetup dir o w).ev ∧
    envExports <+: envFileContent w.bonsaiKeySet ∧
    (w.bonsaiKeySet = false → bonsaiPlaceholder <:+: envFileContent w.bonsaiKeySet) ∧
    (w.bonsaiKeySet = true → ¬ bonsaiPlaceholder <:+: envFileContent w.bonsaiKeySet) := by
  intro dir o w h
  have hfix : envExports <+: envFileContent w.bonsaiKeySet := by
    rw [envFileContent]
    exact List.prefix_append _ _
  have hplaceF : w.bonsaiKeySet = false →
      bonsaiPlaceholder <:+: envFileContent w.bonsaiKeySet := by
    intro hb
    rw [envFileContent, hb, if_neg (by simp)]
    exact (List.suffix_append _ _).isInfix
  have hplaceT : w.bonsaiKeySet = true →
      ¬ bonsaiPlaceholder <:+: envFileContent w.bonsaiKeySet := by
    intro hb
    rw [hb]
    exact notInfix_prop (by decide)
  cases dir with
  | none =>
    have hrw : runSetup none o w = runSetupBody o w [] := rfl
    rw [hrw] at h ⊢
    rcases runSetupBody_success o w [] h with ⟨h1, h2⟩
    exact ⟨h1, h2, hfix, hplaceF, hplaceT⟩
  | some d =>
    by_cases hd : d ∈ w.dirs
    · have hrw : runSetup (some d) o w = runSetupBody o { w with cwd := d } [SEv.chdir d] := by
        rw [runSetup, if_pos hd]
      rw [hrw] at h ⊢
      rcases runSetupBody_success o { w with cwd := d } [SEv.chdir d] h with ⟨h1, h2⟩
      exact ⟨h1, h2, hfix, hplaceF, hplaceT⟩
    · rw [runSetup, if_neg hd] at h
      simp at h

/-- Witness for C8's amended claim at a concrete successful run. -/
theorem c8_witness :
    SEv.writeFile (setupDirOf none wSetupKey) ("env.sh")
        (envFileContent wSetupKey.bonsaiKeySet) ∈ (runSetup none oSetupOk wSetupKey).ev ∧
    SEv.chmodF (setupDirOf none wSetupKey) ("env.sh") ∈ (runSetup none oSetupOk wSetupKey).ev ∧
    envExports <+: envFileContent wSetupKey.bonsaiKeySet ∧
    (wSetupKey.bonsaiKeySet = false →
      bonsaiPlaceholder <:+: envFileContent wSetupKey.bonsaiKeySet) ∧
    (wSetupKey.bonsaiKeySet = true →
      ¬ bonsaiPlaceholder <:+: envFileContent wSetupKey.bonsaiKeySet) :=
  c8_amended none oSetupOk wSetupKey (by decide)

theorem str_append_ne (n s : String) (hs : s ≠ "") : n ++ s ≠ n := by
  intro heq
  have hlen := congrArg String.length heq
  rw [String.length_append] at hlen
  have hzero : s.length = 0 := by omega
  apply hs
  apply String.ext
  exact List.length_eq_zero.1 hzero

theorem stepSeq_forall {P : FsEv → Prop} {a : StepOut} {f : World → StepOut}
    (ha : ∀ e ∈ a.ev, P e) (hf : ∀ w' : World, ∀ e ∈ (f w').ev, P e) :
    ∀ e ∈ (stepSeq a f).ev, P e := by
  intro e he
  rw [stepSeq] at he
  cases herr : a.err with
  | some e0 => rw [herr] at he; exact ha e he
  | none =>
    rw [herr] at he
    dsimp only at he
    rcases List.mem_append.1 he with h | h
    · exact ha e h
    · exact hf a.w e h

theorem remOnly_clone (name : String) (o : InitOracle) :
    ∀ w : World, ∀ e ∈ (cloneStep name o w).ev, remOnly name e := by
  intro w e he p hp
  rw [cloneStep] at he
  simp at he
  subst he
  simp at hp

theorem remOnly_git (name dir : String) (args : List String) (po : ProcOutcome) :
    ∀ w : World, ∀ e ∈ (gitStep dir args po w).ev, remOnly name e := by
  intro w e he p hp
  rw [gitStep] at he
  simp at he
  subst he
  simp at hp

theorem remOnly_sparse (name : String) (o : InitOracle) :
    ∀ w : World, ∀ e ∈ (sparseStep name o w).ev, remOnly name e := by
  intro w
  rw [sparseStep]
  exact stepSeq_forall (remOnly_git name name _ _ w) fun w' => remOnly_git name name _ _ w'

theorem remOnly_spf (name : String) (fs : FsTree) :
    ∀ e ∈ (setupProjectFiles name fs).1, remOnly name e := by
  intro e he p hp
  subst hp
  rcases fs with ⟨nested, exDir, cRoot, rFiles, mv⟩
  cases nested <;> cases exDir <;> cases cRoot <;>
    simp [setupProjectFiles] at he <;> tauto

theorem remOnly_files (name : String) :
    ∀ w : World, ∀ e ∈ (filesStep name w).ev, remOnly name e := by
  intro w e he
  have hev : (filesStep name w).ev = (setupProjectFiles name w.tree).1 := by
    rcases hsp : setupProjectFiles name w.tree with ⟨ev, res⟩
    cases res <;> simp [filesStep, hsp]
  rw [hev] at he
  exact remOnly_spf name w.tree e he

theorem remOnly_cargo (name : String) (o : InitOracle) :
    ∀ w : World, ∀ e ∈ (cargoStep name o w).ev, remOnly name e := by
  intro w e he p hp
  subst hp
  rw [cargoStep] at he
  cases hio : o.cargoIo with
  | some e0 => rw [hio] at he; simp at he
  | none => rw [hio] at he; simp at he

theorem remOnly_foundry (name : String) (o : InitOracle) :
    ∀ w : World, ∀ e ∈ (foundryStep name o w).ev, remOnly name e := by
  intro w e he p hp
  subst hp
  rw [foundryStep] at he
  cases hf : w.foundry with
  | none => rw [hf] at he; simp at he
  | some c =>
    rw [hf] at he
    cases hio : o.foundryIo with
    | some e0 => rw [hio] at he; simp at he
    | none => rw [hio] at he; simp at he

theorem remOnly_submod (name : String) (o : InitOracle) :
    ∀ w : World, ∀ e ∈ (submodStep name o w).ev, remOnly name e := by
  intro w
  rw [submodStep]
  refine stepSeq_forall ?_ fun w1 => ?_
  · intro e he p hp
    subst hp
    by_cases hl : w.libExists <;> by_cases hg : w.gitDirExists <;>
      simp [hl, hg] at he <;> tauto
  · refine stepSeq_forall (remOnly_git name name _ _ w1) fun w2 => ?_
    refine stepSeq_forall (remOnly_git name name _ _ w2) fun w3 => ?_
    refine stepSeq_forall (remOnly_git name name _ _ w3) fun w4 => ?_
    refine stepSeq_forall (remOnly_git name name _ _ w4) fun w5 => ?_
    refine stepSeq_forall (remOnly_git name name _ _ w5) fun w6 => ?_
    exact stepSeq_forall (remOnly_git name name _ _ w6) fun w7 =>
      remOnly_git name name _ _ w7

theorem remOnly_remap (name : String) (o : InitOracle) :
    ∀ w : World, ∀ e ∈ (remapStep name o w).ev, remOnly name e := by
  intro w e he p hp
  subst hp
  rw [remapStep] at he
  cases hr : w.remappings with
  | none => rw [hr] at he; simp at he
  | some c =>
    rw [hr] at he
    cases hio : o.remapIo with
    | some e0 => rw [hio] at he; simp at he
    | none => rw [hio] at he; simp at he

theorem initProject_no_root_remove (name : String) (o : InitOracle) (w : World) :
    ∀ e ∈ (initProject name o w).ev, remOnly name e := by
  rw [initProject]
  by_cases h : w.projExists = true
  · rw [if_pos h]
    intro e he
    simp at he
  · rw [if_neg h]
    refine stepSeq_forall (remOnly_clone name o w) fun w1 => ?_
    refine stepSeq_forall (remOnly_git name name _ _ w1) fun w2 => ?_
    refine stepSeq_forall (remOnly_sparse name o w2) fun w3 => ?_
    refine stepSeq_forall (remOnly_files name w3) fun w4 => ?_
    refine stepSeq_forall (remOnly_cargo name o w4) fun w5 => ?_
    refine stepSeq_forall (remOnly_foundry name o w5) fun w6 => ?_
    exact stepSeq_forall (remOnly_submod name o w6) fun w7 =>
      remOnly_remap name o w7

/-- C1: no step of `init_project` ever recursively deletes the project
directory itself (the compensating cleanup lives only in `main`); and when
`init_project` fails, `main` ends with the project directory gone — its
final action being the single top-level recursive deletion whenever the
directory was left behind. -/
theorem c1_cleanup : ∀ (name : String) (o : InitOracle) (w : World),
    (∀ p : String, FsEv.removeDirAll p ∈ (initProject name o w).ev → p ≠ name) ∧
    ((initProject name o w).err.isSome = true →
      trimEmpty name = false → w.projExists = false →
      (mainNew true name o w).world.projExists = false ∧
      (mainNew true name o w).events =
        (initProject name o w).ev ++
          (if (initProject name o w).w.projExists = true
           then [FsEv.removeDirAll name] else [])) := by
  intro name o w
  constructor
  · intro p hp
    have h := initProject_no_root_remove name o w _ hp p rfl
    rcases h with h | h | h | h <;>
      · rw [h]; exact str_append_ne name _ (by decide)
  · intro herr htrim hex
    rw [mainNew, if_neg (by decide), if_neg (by simp [htrim]), if_neg (by simp [hex])]
    cases hsome : (initProject name o w).err with
    | none => rw [hsome] at herr; simp at herr
    | some e =>
      dsimp only
      by_cases hpe : (initProject name o w).w.projExists = true
      · rw [if_pos hpe, if_pos hpe]
        exact ⟨rfl, rfl⟩
      · rw [if_neg hpe, if_neg hpe]
        refine ⟨?_, by simp⟩
        rw [Bool.not_eq_true] at hpe
        exact hpe

/-- Witness for C1: a failing clone that leaves the directory behind; the
run ends with the directory removed by the top-level cleanup. -/
theorem c1_witness :
    (initProject ("demo") oCloneFail wFresh).err.isSome = true ∧
    (mainNew true ("demo") oCloneFail wFresh).world.projExists = false ∧
    (mainNew true ("demo") oCloneFail wFresh).events =
      (initProject ("demo") oCloneFail wFresh).ev ++ [FsEv.removeDirAll ("demo")] := by
  refine ⟨by decide,
    ((c1_cleanup ("demo") oCloneFail wFresh).2 (by decide) (by decide) (by decide)).1, ?_⟩
  have h := ((c1_cleanup ("demo") oCloneFail wFresh).2 (by decide) (by decide) (by decide)).2
  rw [if_pos (by decide)] at h
  exact h

end Berry
